import Mathlib

/-!
Verification of the change-detection core of `ugs_discord_bot.py` (UGS_Watcher).

The Python source is shallowly embedded: Python dicts become association
lists looked up by first matching key, JSON scalar values become the
inductive `Value`, Python `sorted`/`list.sort` (a stable comparison sort)
becomes a structural stable insertion sort, and the fallible parts
(`int(...)` raising `ValueError`, file/JSON I/O in `load_snapshot`) become
`Option`/`Except` results.  Function names follow the source.
-/

set_option synthInstance.maxSize 1000

deriving instance DecidableEq for Except

namespace UGS

/-- Scalar JSON values as they occur in the Canvas payload and in the
persisted snapshot: `null`, strings, integers and booleans. -/
inductive Value where
  | null : Value
  | str (s : String) : Value
  | int (n : Int) : Value
  | bool (b : Bool) : Value
deriving DecidableEq, Repr

/-- A Python dict with string keys and scalar values, embedded as an
association list; lookups take the first matching key. -/
abbrev Entry := List (String × Value)

/-- Python `k in d`. -/
def hasKey (e : Entry) (k : String) : Bool :=
  (e.find? (fun p => p.1 == k)).isSome

/-- Python `d.get(k, None)` (also `d.get(k)`): the value at `k`, or `None`
when the key is absent. -/
def getD (e : Entry) (k : String) : Value :=
  match e.find? (fun p => p.1 == k) with
  | some p => p.2
  | none => Value.null

/-- The keys of a dict, in insertion order. -/
def keysOf (e : Entry) : List String := e.map (·.1)

/-- Python dict equality `d1 == d2`: the two dicts have the same key set and
agree on the value at every key. -/
def dictEq (e1 e2 : Entry) : Bool :=
  (keysOf e1 ++ keysOf e2).all
    (fun k => hasKey e1 k == hasKey e2 k && getD e1 k == getD e2 k)

/-- Python truthiness of a scalar value (`bool(v)`). -/
def pyTruthy : Value → Bool
  | Value.null => false
  | Value.str s => !(s == "")
  | Value.int n => !(n == 0)
  | Value.bool b => b

/-- Python `str(v)` on a scalar value. -/
def pyStr : Value → String
  | Value.null => "None"
  | Value.str s => s
  | Value.int n => toString n
  | Value.bool true => "True"
  | Value.bool false => "False"

/-- `DUE_KEYS = ("due_at", "unlock_at", "lock_at", "title", "base")`. -/
def DUE_KEYS : List String := ["due_at", "unlock_at", "lock_at", "title", "base"]

/-- `normalize_due_entry`: keep only the recognized `DUE_KEYS` fields, in
that fixed order, filling missing fields with `None` and passing present
values through unchanged. -/
def normalize_due_entry (entry : Entry) : Entry :=
  DUE_KEYS.map (fun k => (k, getD entry k))

/-! ### Comparison machinery for the composite sort key

Python compares key tuples lexicographically, strings by code point.
`String.ltb` does not reduce in the kernel, so string comparison is spelled
out structurally on the character list. -/

/-- Three-way comparison derived from a linear order. -/
def cmpOfLt {α : Type} [LinearOrder α] (a b : α) : Ordering :=
  if a < b then .lt else if b < a then .gt else .eq

/-- Lexicographic three-way comparison of character lists (Python string
comparison by code point). -/
def charListCmp : List Char → List Char → Ordering
  | [], [] => .eq
  | [], _ :: _ => .lt
  | _ :: _, [] => .gt
  | a :: as, b :: bs => (cmpOfLt a b).then (charListCmp as bs)

/-- Three-way comparison of strings, Python style. -/
def strCmp (a b : String) : Ordering := charListCmp a.toList b.toList

/-- Lexicographic composition of two three-way comparisons on a pair. -/
def pairCmp {α β : Type} (c1 : α → α → Ordering) (c2 : β → β → Ordering)
    (p q : α × β) : Ordering :=
  (c1 p.1 q.1).then (c2 p.2 q.2)

/-- The composite sort key type returned by `sort_key_due`: a 5-tuple
(title, is-base flag as 0/1, due, unlock, lock). -/
abbrev SortKey := String × Nat × String × String × String

/-- Three-way comparison of composite sort keys, component by component. -/
def sortKeyCmp : SortKey → SortKey → Ordering :=
  pairCmp strCmp (pairCmp cmpOfLt (pairCmp strCmp (pairCmp strCmp strCmp)))

/-- Python `x or ""` followed by `str(...)`: the string form of a truthy
value, and the empty string otherwise. -/
def strOrEmpty (v : Value) : String :=
  if pyTruthy v then pyStr v else ""

/-- `sort_key_due`: the deterministic composite key — title as a string,
then `1 if entry.get("base") else 0`, then the three timestamps as
strings. -/
def sort_key_due (entry : Entry) : SortKey :=
  (strOrEmpty (getD entry "title"),
   (if pyTruthy (getD entry "base") then 1 else 0),
   strOrEmpty (getD entry "due_at"),
   strOrEmpty (getD entry "unlock_at"),
   strOrEmpty (getD entry "lock_at"))

/-- Boolean "less or equal" derived from a three-way comparison. -/
def cmpLe {α : Type} (cmp : α → α → Ordering) (a b : α) : Bool :=
  !(cmp a b == Ordering.gt)

/-- The entry order used by `norm_list.sort(key=sort_key_due)`. -/
def entLe (e1 e2 : Entry) : Bool :=
  cmpLe sortKeyCmp (sort_key_due e1) (sort_key_due e2)

/-! ### Stable sorting

Python's `sorted`/`list.sort` is a stable comparison sort; it is embedded
as a structurally recursive stable insertion sort. -/

/-- Insert an element into a sorted list, before the first element it
compares `le` to (stable placement). -/
def insertSorted {α : Type} (le : α → α → Bool) (x : α) : List α → List α
  | [] => [x]
  | y :: ys => if le x y then x :: y :: ys else y :: insertSorted le x ys

/-- Stable insertion sort. -/
def stableSort {α : Type} (le : α → α → Bool) (l : List α) : List α :=
  l.foldr (insertSorted le) []

/-- `norm_list.sort(key=sort_key_due)`. -/
def sort_entries (l : List Entry) : List Entry := stableSort entLe l

/-! ### Canonical indexer -/

/-- One element of the `quiz_assignment_overrides` array, reduced to the two
accesses the code performs on it: `quiz_id` holds `item.get("quiz_id")`
(`null` when the key is absent or explicitly null), and `due_dates` holds
the raw list at `"due_dates"`, `none` when the key is absent or its value
null/falsy — `item.get("due_dates", []) or []` then yields the empty
list. -/
structure OverrideItem where
  quiz_id : Value
  due_dates : Option (List Entry)
deriving DecidableEq, Repr

/-- A Python dict from string quiz ids to lists of normalized entries,
embedded as an association list with first-match lookup. -/
abbrev Snapshot := List (String × List Entry)

/-- Python `out[k] = v` on a dict: replace the value at an existing key in
place, otherwise append the new binding. -/
def dictSet (s : Snapshot) (k : String) (v : List Entry) : Snapshot :=
  if s.any (fun p => p.1 == k) then
    s.map (fun p => if p.1 == k then (k, v) else p)
  else s ++ [(k, v)]

/-- Python `old_idx[qid]`, with the empty group as the (unreachable in the
source, where the key is always present) default. -/
def getGroup (s : Snapshot) (k : String) : List Entry :=
  match s.find? (fun p => p.1 == k) with
  | some p => p.2
  | none => []

/-- The key set of a snapshot, `set(idx)`, as a duplicate-free list. -/
def snapKeys (s : Snapshot) : List String := (s.map (·.1)).dedup

/-- The single processing step of the `for item in arr` loop of
`normalize_payload_to_index`: skip items whose `quiz_id` is missing, else
bind the stringified id to the normalized, sorted due entries. -/
def indexStep (out : Snapshot) (item : OverrideItem) : Snapshot :=
  if item.quiz_id = Value.null then out
  else
    let due := item.due_dates.getD []
    dictSet out (pyStr item.quiz_id) (sort_entries (due.map normalize_due_entry))

/-- `normalize_payload_to_index`: fold the items of the
`quiz_assignment_overrides` array into a snapshot. -/
def normalize_payload_to_index (arr : List OverrideItem) : Snapshot :=
  arr.foldl indexStep []

/-! ### Python `int(...)` on strings -/

/-- Characters stripped by Python `int(str)` around the literal. -/
def isPySpace (c : Char) : Bool :=
  c == ' ' || c == '\t' || c == '\n' || c == '\r' || c == '\x0b' || c == '\x0c'

/-- ASCII decimal digit test. -/
def isPyDigit (c : Char) : Bool := '0' ≤ c && c ≤ '9'

/-- Numeric value of a digit string. -/
def digitsVal (cs : List Char) : Nat :=
  cs.foldl (fun acc c => acc * 10 + (c.toNat - '0'.toNat)) 0

/-- Parse a nonempty all-digit character list. -/
def parseDigits (cs : List Char) : Option Int :=
  if cs ≠ [] && cs.all isPyDigit then some (digitsVal cs) else none

/-- Python `int(s)` on a string, as an `Option`: surrounding whitespace is
stripped, an optional sign is allowed, and anything else yields `none`
(the `ValueError` case). -/
def pyInt? (s : String) : Option Int :=
  let cs := ((s.toList.dropWhile isPySpace).reverse.dropWhile isPySpace).reverse
  match cs with
  | '+' :: rest => parseDigits rest
  | '-' :: rest => (parseDigits rest).map (fun n => -n)
  | rest => parseDigits rest

/-- The order `sorted(ids, key=int)` sorts by: the parsed integer value
(the parse is guaranteed to succeed where this is used). -/
def intLe (a b : String) : Bool :=
  decide ((pyInt? a).getD 0 ≤ (pyInt? b).getD 0)

/-- `sorted(ids, key=int)` on a list of id strings. -/
def sortedByInt (l : List String) : List String := stableSort intLe l

/-! ### Differ -/

/-- One side of a recorded `(old, new)` diff pair: either a scalar field
value (`left.get(k)` / `right.get(k)`), or — for the whole-entry marker
`"<entry>"` — an optional whole entry (`None` on the missing side). -/
inductive DiffVal where
  | val (v : Value) : DiffVal
  | ent (e : Option Entry) : DiffVal
deriving DecidableEq, Repr

/-- The per-position `field_diffs` dict: field name to `(old, new)` pair. -/
abbrev FieldDiffs := List (String × DiffVal × DiffVal)

/-- Duplicate removal keeping first occurrences, with an accumulator of
already-seen keys (structurally recursive, so it reduces in the kernel). -/
def dedupAcc (seen : List String) : List String → List String
  | [] => []
  | x :: xs => if seen.contains x then dedupAcc seen xs else x :: dedupAcc (x :: seen) xs

/-- Duplicate removal keeping first occurrences. -/
def dedupFirst (l : List String) : List String := dedupAcc [] l

/-- The `keys = set(left) | set(right)` loop of `list_diff`: one `(old,
new)` pair for every key of either entry whose two looked-up values
differ.  (CPython iterates the set in an unspecified order; the embedding
fixes left-then-right first-occurrence order.) -/
def entryFieldDiffs (l r : Entry) : FieldDiffs :=
  (dedupFirst (keysOf l ++ keysOf r)).filterMap
    (fun k =>
      if getD l k = getD r k then none
      else some (k, DiffVal.val (getD l k), DiffVal.val (getD r k)))

/-- The `field_diffs` dict built by the body of the `for i in
range(maxlen)` loop of `list_diff` at one position, `none` when nothing
gets recorded there (equal entries, or an unequal pair whose looked-up
values all agree). -/
def positionFd (a b : List Entry) (i : Nat) : Option FieldDiffs :=
  match a[i]?, b[i]? with
  | some l, some r =>
    if dictEq l r then none
    else
      let fd := entryFieldDiffs l r
      if fd = [] then none else some fd
  | some l, none => some [("<entry>", DiffVal.ent (some l), DiffVal.ent none)]
  | none, some r => some [("<entry>", DiffVal.ent none, DiffVal.ent (some r))]
  | none, none => none

/-- The body of the `for i in range(maxlen)` loop of `list_diff` at one
position: the recorded `(i, field_diffs)` pair, `none` when nothing is
recorded there. -/
def positionDiff (a b : List Entry) (i : Nat) : Option (Nat × FieldDiffs) :=
  (positionFd a b i).map (fun fd => (i, fd))

/-- `list_diff`: element-wise comparison of two entry lists up to the
longer length, collecting the non-empty per-position field diffs. -/
def list_diff (a b : List Entry) : List (Nat × FieldDiffs) :=
  (List.range (max a.length b.length)).filterMap (positionDiff a b)

/-- The structured change-set returned by `compute_changes_quiz`. -/
structure ChangeSet where
  added : List String
  removed : List String
  changed : List (String × List (Nat × FieldDiffs))
deriving DecidableEq, Repr

/-- `compute_changes_quiz`: added/removed/changed quiz ids between two
snapshots.  `sorted(..., key=int)` raises `ValueError` on a non-numeric
id; since every id of either snapshot flows through one of the three
`sorted` calls, the embedding returns `Except.error` exactly when some id
of either snapshot does not parse. -/
def compute_changes_quiz (old_idx new_idx : Snapshot) :
    Except String ChangeSet :=
  let old_ids := snapKeys old_idx
  let new_ids := snapKeys new_idx
  if (old_ids ++ new_ids).all (fun k => (pyInt? k).isSome) then
    let added := sortedByInt (new_ids.filter (fun k => !(old_ids.contains k)))
    let removed := sortedByInt (old_ids.filter (fun k => !(new_ids.contains k)))
    let inter := sortedByInt (old_ids.filter (fun k => new_ids.contains k))
    let changed := inter.filterMap (fun qid =>
      if list_diff (getGroup old_idx qid) (getGroup new_idx qid) = [] then none
      else some (qid, list_diff (getGroup old_idx qid) (getGroup new_idx qid)))
    Except.ok ⟨added, removed, changed⟩
  else Except.error "invalid literal for int() with base 10"

/-! ### Renderer -/

/-- `fmt_dt`: `x or "null"` — the value itself when truthy, the literal
string "null" otherwise. -/
def fmt_dt (v : Value) : String :=
  if pyTruthy v then pyStr v else "null"

/-- JSON string escaping as `json.dumps` performs it on the characters that
can occur here (quote, backslash, control characters). -/
def jsonEscapeChar (c : Char) : String :=
  if c = '"' then "\\\""
  else if c = '\\' then "\\\\"
  else if c = '\n' then "\\n"
  else if c = '\t' then "\\t"
  else if c = '\r' then "\\r"
  else String.singleton c

/-- `json.dumps` of a scalar value. -/
def jsonDumpsValue : Value → String
  | Value.null => "null"
  | Value.bool true => "true"
  | Value.bool false => "false"
  | Value.int n => toString n
  | Value.str s => "\"" ++ String.join (s.toList.map jsonEscapeChar) ++ "\""

/-- `json.dumps` of a dict, keys in insertion order. -/
def jsonDumpsEntry (e : Entry) : String :=
  "\x7b" ++ String.intercalate ", "
    (e.map (fun p => jsonDumpsValue (Value.str p.1) ++ ": " ++ jsonDumpsValue p.2))
    ++ "\x7d"

/-- `json.dumps` applied to one side of a diff pair (`None` dumps to
"null"; the `.val` scalar side never reaches this call in the source, but
the embedding keeps the function total). -/
def jsonDumpsDiffVal : DiffVal → String
  | DiffVal.val v => jsonDumpsValue v
  | DiffVal.ent none => "null"
  | DiffVal.ent (some e) => jsonDumpsEntry e

/-- Python `str(...)` interpolation of one side of a field-level diff pair.
Field-level pairs produced by `list_diff` are always scalar `.val`s; the
`.ent` case is unreachable there and rendered by its JSON text. -/
def pyStrDiffVal : DiffVal → String
  | DiffVal.val v => pyStr v
  | DiffVal.ent none => "None"
  | DiffVal.ent (some e) => jsonDumpsEntry e

/-- `fmt_dt` applied to one side of a field-level diff pair (same
unreachable-`.ent` note as `pyStrDiffVal`). -/
def fmtDtDiffVal : DiffVal → String
  | DiffVal.val v => fmt_dt v
  | DiffVal.ent none => "null"
  | DiffVal.ent (some e) => if e = [] then "null" else jsonDumpsEntry e

/-- One element of the `pretty` list for a single changed field: timestamp
fields go through `fmt_dt` in backticks, other fields through plain
interpolation. -/
def renderField (k : String) (ov nv : DiffVal) : String :=
  if k = "due_at" || k = "unlock_at" || k = "lock_at" then
    k ++ ": `" ++ fmtDtDiffVal ov ++ "` → `" ++ fmtDtDiffVal nv ++ "`"
  else
    k ++ ": `" ++ pyStrDiffVal ov ++ "` → `" ++ pyStrDiffVal nv ++ "`"

/-- The "   • "-indented line for one position's field diffs: the
whole-entry marker, when present, is rendered alone as JSON, otherwise
every field is rendered and joined with "; ". -/
def renderPosition (idx : Nat) (fields : FieldDiffs) : String :=
  match fields.find? (fun p => p.1 == "<entry>") with
  | some p =>
    "   • entry #" ++ toString idx ++ ": " ++ jsonDumpsDiffVal p.2.1
      ++ " → " ++ jsonDumpsDiffVal p.2.2
  | none =>
    "   • " ++ String.intercalate "; "
      (fields.map (fun p => renderField p.1 p.2.1 p.2.2))

/-- The lines of the "changed" block: per changed quiz, a "- quiz ..." line
followed by one line per changed position. -/
def changedLines (changed : List (String × List (Nat × FieldDiffs))) : List String :=
  (changed.map (fun qc =>
    ("- quiz `" ++ qc.1 ++ "`") :: qc.2.map (fun pf => renderPosition pf.1 pf.2))).flatten

/-- The added-quizzes block of the report, empty when nothing was added. -/
def addedBlock (added : List String) : List String :=
  if added = [] then []
  else ["**➕ Quizzes added (new overrides):** "
    ++ String.intercalate ", " (added.map (fun q => "`" ++ q ++ "`"))]

/-- The removed-quizzes block of the report, empty when nothing was
removed. -/
def removedBlock (removed : List String) : List String :=
  if removed = [] then []
  else ["**➖ Quizzes removed (overrides gone):** "
    ++ String.intercalate ", " (removed.map (fun q => "`" ++ q ++ "`"))]

/-- The changed-overrides block of the report, empty when nothing
changed. -/
def changedBlock (changed : List (String × List (Nat × FieldDiffs))) : List String :=
  if changed = [] then []
  else "**✏️ Overrides changed:**" :: changedLines changed

/-- The header line naming the course context. -/
def headerLine (course_id : String) : String :=
  "@everyone 📣 Canvas changes detected for course `" ++ course_id
    ++ "` (quiz_assignment_overrides)"

/-- `render_change_message_quiz`: empty when no category has content,
otherwise the header followed by the added, removed and changed blocks in
that order, one line each, newline-joined. -/
def render_change_message_quiz (added removed : List String)
    (changed : List (String × List (Nat × FieldDiffs))) (course_id : String) :
    String :=
  let lines := addedBlock added ++ removedBlock removed ++ changedBlock changed
  if lines = [] then ""
  else headerLine course_id ++ "\n" ++ String.intercalate "\n" lines

/-! ### Snapshot store -/

/-- Outcome of reading the snapshot file, the shallow embedding of the
`SNAPSHOT_FILE.exists()` / `read_text()` / `json.loads` pipeline of
`load_snapshot`: the file is absent, or reading/parsing raises (the
caught-`Exception` branch), or it parses to a stored snapshot. -/
inductive StoreState where
  | absent : StoreState
  | unreadable : StoreState
  | stored (s : Snapshot) : StoreState
deriving DecidableEq, Repr

/-- `load_snapshot`: the empty snapshot when the file is missing or its
content fails to read/parse, the stored snapshot otherwise; never an
exception. -/
def load_snapshot : StoreState → Snapshot
  | StoreState.absent => []
  | StoreState.unreadable => []
  | StoreState.stored s => s

/-! ### Statement-level auxiliary definitions -/

/-- Lawfulness of a three-way comparison: swap anti-symmetry, reflection of
equality, and transitivity of strict less-than. -/
structure CmpLawful {α : Type} (cmp : α → α → Ordering) : Prop where
  swap_eq : ∀ a b, cmp a b = (cmp b a).swap
  eq_iff : ∀ a b, cmp a b = Ordering.eq ↔ a = b
  lt_trans : ∀ a b c, cmp a b = Ordering.lt → cmp b c = Ordering.lt → cmp a c = Ordering.lt

/-- The field-diff dict recorded at position `i` of a per-position diff
list, the empty dict when the position recorded nothing. -/
def diffAt (d : List (Nat × FieldDiffs)) (i : Nat) : FieldDiffs :=
  match d.find? (fun p => p.1 == i) with
  | some p => p.2
  | none => []

/-- Whether one side of a diff pair is a present whole entry. -/
def isEntSome : DiffVal → Bool
  | DiffVal.ent (some _) => true
  | _ => false

/-- Statement of claim C1 for one identifier present in both snapshots:
positional comparison up to the longer length, per-field pairs exactly for
the union fields whose values differ, whole-entry diffs on length
mismatch, and membership in `changed` exactly for identifiers with a
non-empty diff. -/
def C1Prop (old_idx new_idx : Snapshot) (cs : ChangeSet) (qid : String) : Prop :=
  (∀ p ∈ list_diff (getGroup old_idx qid) (getGroup new_idx qid),
    p.1 < max (getGroup old_idx qid).length (getGroup new_idx qid).length) ∧
  (∀ i l r, (getGroup old_idx qid)[i]? = some l → (getGroup new_idx qid)[i]? = some r →
    (∀ k ov nv,
      (k, ov, nv) ∈ diffAt (list_diff (getGroup old_idx qid) (getGroup new_idx qid)) i ↔
      ((k ∈ keysOf l ∨ k ∈ keysOf r) ∧ getD l k ≠ getD r k ∧
        ov = DiffVal.val (getD l k) ∧ nv = DiffVal.val (getD r k)))) ∧
  (∀ i, ((diffAt (list_diff (getGroup old_idx qid) (getGroup new_idx qid)) i).map
    (fun f => f.1)).Nodup) ∧
  (∀ i l, (getGroup old_idx qid)[i]? = some l → (getGroup new_idx qid)[i]? = none →
    diffAt (list_diff (getGroup old_idx qid) (getGroup new_idx qid)) i =
      [("<entry>", DiffVal.ent (some l), DiffVal.ent none)]) ∧
  (∀ i r, (getGroup old_idx qid)[i]? = none → (getGroup new_idx qid)[i]? = some r →
    diffAt (list_diff (getGroup old_idx qid) (getGroup new_idx qid)) i =
      [("<entry>", DiffVal.ent none, DiffVal.ent (some r))]) ∧
  ((∃ ds, (qid, ds) ∈ cs.changed) ↔
    list_diff (getGroup old_idx qid) (getGroup new_idx qid) ≠ []) ∧
  ((qid, list_diff (getGroup old_idx qid) (getGroup new_idx qid)) ∈ cs.changed ↔
    list_diff (getGroup old_idx qid) (getGroup new_idx qid) ≠ [])

/-- Statement of claim C10: the per-position diff list of `list_diff` has
strictly increasing positions below the longer length, never records an
equal pair, and a position carrying the `"<entry>"` marker carries it
alone, with exactly one side a missing (`None`) entry. -/
def C10Prop (a b : List Entry) : Prop :=
  List.Pairwise (fun p q => p.1 < q.1) (list_diff a b) ∧
  ∀ p ∈ list_diff a b, p.1 < max a.length b.length ∧
    (∀ f ∈ p.2, f.2.1 ≠ f.2.2) ∧
    (∀ f ∈ p.2, f.1 = "<entry>" →
      p.2 = [f] ∧
      ((f.2.1 = DiffVal.ent none ∧ isEntSome f.2.2 = true) ∨
       (f.2.2 = DiffVal.ent none ∧ isEntSome f.2.1 = true)))

/-- Modelled from the spec: the composite key order as the spec words it —
title first, then the is-base flag in descending order (base entries
before non-base entries with the same title), then the due/unlock/lock
timestamps as strings.  Descending flag comparison is encoded by mapping
base entries to 0 and non-base entries to 1 before the ascending
comparison. -/
def spec_sort_key (entry : Entry) : SortKey :=
  (strOrEmpty (getD entry "title"),
   (if pyTruthy (getD entry "base") then 0 else 1),
   strOrEmpty (getD entry "due_at"),
   strOrEmpty (getD entry "unlock_at"),
   strOrEmpty (getD entry "lock_at"))

/-- Modelled from the spec: the entry order induced by `spec_sort_key`. -/
def specEntryLe (e1 e2 : Entry) : Bool :=
  cmpLe sortKeyCmp (spec_sort_key e1) (spec_sort_key e2)

/-- A payload with one quiz carrying a base and a non-base override of the
same title: the sort direction of the is-base flag decides their order. -/
def c3Payload : List OverrideItem :=
  [⟨Value.int 1,
    some [[("base", Value.bool true), ("title", Value.str "t")],
          [("base", Value.bool false), ("title", Value.str "t")]]⟩]

/-! ## Lemmas about three-way comparisons -/

theorem cmpOfLt_eq_lt {α : Type} [LinearOrder α] {a b : α} :
    cmpOfLt a b = Ordering.lt ↔ a < b := by
  unfold cmpOfLt
  split
  · simp_all
  · split <;> simp_all

theorem cmpOfLt_eq_eq {α : Type} [LinearOrder α] {a b : α} :
    cmpOfLt a b = Ordering.eq ↔ a = b := by
  unfold cmpOfLt
  rcases lt_trichotomy a b with h | h | h
  · simp [h, h.ne]
  · simp [h, lt_irrefl]
  · simp [h, asymm h, h.ne']

theorem cmpOfLt_swap {α : Type} [LinearOrder α] (a b : α) :
    cmpOfLt a b = (cmpOfLt b a).swap := by
  unfold cmpOfLt
  rcases lt_trichotomy a b with h | h | h
  · simp [h, asymm h, Ordering.swap]
  · simp [h, lt_irrefl, Ordering.swap]
  · simp [h, asymm h, Ordering.swap]

theorem cmpOfLt_lawful {α : Type} [LinearOrder α] : CmpLawful (cmpOfLt (α := α)) := by
  refine ⟨cmpOfLt_swap, fun _ _ => cmpOfLt_eq_eq, fun a b c h1 h2 => ?_⟩
  rw [cmpOfLt_eq_lt] at h1 h2 ⊢
  exact h1.trans h2

theorem charListCmp_swap (a b : List Char) :
    charListCmp a b = (charListCmp b a).swap := by
  induction a generalizing b with
  | nil => cases b <;> rfl
  | cons x xs ih =>
    cases b with
    | nil => rfl
    | cons y ys =>
      show (cmpOfLt x y).then (charListCmp xs ys) =
        ((cmpOfLt y x).then (charListCmp ys xs)).swap
      rw [cmpOfLt_swap x y, ih ys]
      cases cmpOfLt y x <;> cases charListCmp ys xs <;> rfl

theorem charListCmp_eq_eq {a b : List Char} :
    charListCmp a b = Ordering.eq ↔ a = b := by
  induction a generalizing b with
  | nil => cases b <;> simp [charListCmp]
  | cons x xs ih =>
    cases b with
    | nil => simp [charListCmp]
    | cons y ys =>
      show (cmpOfLt x y).then (charListCmp xs ys) = Ordering.eq ↔ _
      cases h : cmpOfLt x y with
      | lt => simp [Ordering.then, (cmpOfLt_eq_eq (a := x) (b := y)).symm, h]
      | eq =>
        have hxy : x = y := cmpOfLt_eq_eq.mp h
        simp [Ordering.then, hxy, ih]
      | gt => simp [Ordering.then, (cmpOfLt_eq_eq (a := x) (b := y)).symm, h]

theorem charListCmp_lt_trans :
    ∀ {a b c : List Char}, charListCmp a b = Ordering.lt →
      charListCmp b c = Ordering.lt → charListCmp a c = Ordering.lt := by
  intro a
  induction a with
  | nil =>
    intro b c h1 h2
    cases b with
    | nil => simp [charListCmp] at h1
    | cons y ys =>
      cases c with
      | nil => simp [charListCmp] at h2
      | cons z zs => rfl
  | cons x xs ih =>
    intro b c h1 h2
    cases b with
    | nil => simp [charListCmp] at h1
    | cons y ys =>
      cases c with
      | nil => simp [charListCmp] at h2
      | cons z zs =>
        have h1' : (cmpOfLt x y).then (charListCmp xs ys) = Ordering.lt := h1
        have h2' : (cmpOfLt y z).then (charListCmp ys zs) = Ordering.lt := h2
        show (cmpOfLt x z).then (charListCmp xs zs) = Ordering.lt
        cases hxy : cmpOfLt x y with
        | gt => rw [hxy] at h1'; exact absurd h1' (by simp [Ordering.then])
        | lt =>
          cases hyz : cmpOfLt y z with
          | gt => rw [hyz] at h2'; exact absurd h2' (by simp [Ordering.then])
          | lt =>
            have : cmpOfLt x z = Ordering.lt :=
              cmpOfLt_eq_lt.mpr ((cmpOfLt_eq_lt.mp hxy).trans (cmpOfLt_eq_lt.mp hyz))
            rw [this]; rfl
          | eq =>
            have hyz' : y = z := cmpOfLt_eq_eq.mp hyz
            subst hyz'
            rw [hxy]; rfl
        | eq =>
          have hxy' : x = y := cmpOfLt_eq_eq.mp hxy
          subst hxy'
          rw [hxy] at h1'
          cases hyz : cmpOfLt x z with
          | lt => rfl
          | gt => rw [hyz] at h2'; exact absurd h2' (by simp [Ordering.then])
          | eq =>
            have hyz' : x = z := cmpOfLt_eq_eq.mp hyz
            subst hyz'
            rw [hyz] at h2'
            show charListCmp xs zs = Ordering.lt
            exact ih (by simpa [Ordering.then] using h1') (by simpa [Ordering.then] using h2')

theorem charListCmp_lawful : CmpLawful charListCmp :=
  ⟨charListCmp_swap, fun _ _ => charListCmp_eq_eq,
   fun _ _ _ h1 h2 => charListCmp_lt_trans h1 h2⟩

theorem strCmp_lawful : CmpLawful strCmp := by
  refine ⟨fun a b => charListCmp_swap _ _, fun a b => ?_, fun a b c h1 h2 => charListCmp_lt_trans h1 h2⟩
  unfold strCmp
  rw [charListCmp_eq_eq]
  constructor
  · intro h
    exact String.ext h
  · intro h
    rw [h]

theorem pairCmp_lawful {α β : Type} {c1 : α → α → Ordering} {c2 : β → β → Ordering}
    (h1 : CmpLawful c1) (h2 : CmpLawful c2) : CmpLawful (pairCmp c1 c2) := by
  refine ⟨fun p q => ?_, fun p q => ?_, fun p q r ha hb => ?_⟩
  · show (c1 p.1 q.1).then (c2 p.2 q.2) = ((c1 q.1 p.1).then (c2 q.2 p.2)).swap
    rw [h1.swap_eq p.1 q.1, h2.swap_eq p.2 q.2]
    cases c1 q.1 p.1 <;> cases c2 q.2 p.2 <;> rfl
  · show (c1 p.1 q.1).then (c2 p.2 q.2) = Ordering.eq ↔ p = q
    cases hc : c1 p.1 q.1 with
    | lt => simp [Ordering.then]; intro h; rw [h] at hc; rw [(h1.eq_iff q.1 q.1).mpr rfl] at hc; exact absurd hc (by simp)
    | gt => simp [Ordering.then]; intro h; rw [h] at hc; rw [(h1.eq_iff q.1 q.1).mpr rfl] at hc; exact absurd hc (by simp)
    | eq =>
      have he : p.1 = q.1 := (h1.eq_iff p.1 q.1).mp hc
      show Ordering.then Ordering.eq (c2 p.2 q.2) = Ordering.eq ↔ p = q
      rw [show Ordering.then Ordering.eq (c2 p.2 q.2) = c2 p.2 q.2 from rfl, h2.eq_iff]
      constructor
      · intro hs
        exact Prod.ext he hs
      · intro h
        rw [h]
  · show (c1 p.1 r.1).then (c2 p.2 r.2) = Ordering.lt
    have ha' : (c1 p.1 q.1).then (c2 p.2 q.2) = Ordering.lt := ha
    have hb' : (c1 q.1 r.1).then (c2 q.2 r.2) = Ordering.lt := hb
    cases hc1 : c1 p.1 q.1 with
    | gt => rw [hc1] at ha'; exact absurd ha' (by simp [Ordering.then])
    | lt =>
      cases hc2 : c1 q.1 r.1 with
      | gt => rw [hc2] at hb'; exact absurd hb' (by simp [Ordering.then])
      | lt => rw [h1.lt_trans _ _ _ hc1 hc2]; rfl
      | eq =>
        have : q.1 = r.1 := (h1.eq_iff _ _).mp hc2
        rw [← this, hc1]; rfl
    | eq =>
      have he : p.1 = q.1 := (h1.eq_iff _ _).mp hc1
      rw [hc1] at ha'
      cases hc2 : c1 q.1 r.1 with
      | gt => rw [hc2] at hb'; exact absurd hb' (by simp [Ordering.then])
      | lt => rw [he, hc2]; rfl
      | eq =>
        rw [hc2] at hb'
        have : (c2 p.2 r.2) = Ordering.lt :=
          h2.lt_trans _ _ _ (by simpa [Ordering.then] using ha') (by simpa [Ordering.then] using hb')
        rw [he, hc2]
        simpa [Ordering.then] using this

theorem sortKeyCmp_lawful : CmpLawful sortKeyCmp :=
  pairCmp_lawful strCmp_lawful
    (pairCmp_lawful cmpOfLt_lawful
      (pairCmp_lawful strCmp_lawful
        (pairCmp_lawful strCmp_lawful strCmp_lawful)))

theorem cmpLe_iff {α : Type} {cmp : α → α → Ordering} {a b : α} :
    cmpLe cmp a b = true ↔ cmp a b ≠ Ordering.gt := by
  unfold cmpLe
  cases cmp a b <;> simp <;> rfl

theorem cmpLe_total {α : Type} {cmp : α → α → Ordering} (h : CmpLawful cmp) (a b : α) :
    cmpLe cmp a b = true ∨ cmpLe cmp b a = true := by
  by_cases hg : cmp a b = Ordering.gt
  · right
    rw [cmpLe_iff]
    rw [h.swap_eq b a, hg]
    simp [Ordering.swap]
  · left
    exact cmpLe_iff.mpr hg

theorem cmpLe_trans {α : Type} {cmp : α → α → Ordering} (h : CmpLawful cmp) {a b c : α}
    (hab : cmpLe cmp a b = true) (hbc : cmpLe cmp b c = true) : cmpLe cmp a c = true := by
  rw [cmpLe_iff] at hab hbc ⊢
  cases h1 : cmp a b with
  | gt => exact absurd h1 hab
  | eq =>
    have : a = b := (h.eq_iff _ _).mp h1
    rw [this]
    exact hbc
  | lt =>
    cases h2 : cmp b c with
    | gt => exact absurd h2 hbc
    | eq =>
      have : b = c := (h.eq_iff _ _).mp h2
      rw [← this, h1]
      simp
    | lt =>
      rw [h.lt_trans _ _ _ h1 h2]
      simp

/-! ## Lemmas about the stable insertion sort -/

theorem insertSorted_perm {α : Type} (le : α → α → Bool) (x : α) :
    ∀ l : List α, List.Perm (insertSorted le x l) (x :: l) := by
  intro l
  induction l with
  | nil => exact List.Perm.refl _
  | cons y ys ih =>
    show List.Perm (if le x y then x :: y :: ys else y :: insertSorted le x ys) (x :: y :: ys)
    split
    · exact List.Perm.refl _
    · exact (ih.cons y).trans (List.Perm.swap x y ys)

theorem stableSort_perm {α : Type} (le : α → α → Bool) (l : List α) :
    List.Perm (stableSort le l) l := by
  induction l with
  | nil => exact List.Perm.refl _
  | cons x xs ih =>
    show List.Perm (insertSorted le x (stableSort le xs)) (x :: xs)
    exact (insertSorted_perm le x _).trans (ih.cons x)

theorem mem_insertSorted {α : Type} {le : α → α → Bool} {x a : α} {l : List α} :
    a ∈ insertSorted le x l ↔ a = x ∨ a ∈ l := by
  rw [(insertSorted_perm le x l).mem_iff, List.mem_cons]

theorem pairwise_insertSorted {α : Type} {le : α → α → Bool}
    (total : ∀ a b, le a b = true ∨ le b a = true)
    (htrans : ∀ a b c, le a b = true → le b c = true → le a c = true)
    (x : α) :
    ∀ {l : List α}, l.Pairwise (fun a b => le a b = true) →
      (insertSorted le x l).Pairwise (fun a b => le a b = true) := by
  intro l
  induction l with
  | nil =>
    intro
    simp [insertSorted]
  | cons y ys ih =>
    intro hp
    rw [List.pairwise_cons] at hp
    obtain ⟨hy, hys⟩ := hp
    show (if le x y then x :: y :: ys else y :: insertSorted le x ys).Pairwise _
    split
    · rename_i hxy
      rw [List.pairwise_cons]
      refine ⟨?_, List.pairwise_cons.mpr ⟨hy, hys⟩⟩
      intro z hz
      rcases List.mem_cons.mp hz with h | h
      · rw [h]; exact hxy
      · exact htrans x y z hxy (hy z h)
    · rename_i hxy
      rw [List.pairwise_cons]
      refine ⟨?_, ih hys⟩
      intro z hz
      rcases mem_insertSorted.mp hz with h | h
      · rw [h]
        rcases total x y with ht | ht
        · exact absurd ht hxy
        · exact ht
      · exact hy z h

theorem pairwise_stableSort {α : Type} {le : α → α → Bool}
    (total : ∀ a b, le a b = true ∨ le b a = true)
    (htrans : ∀ a b c, le a b = true → le b c = true → le a c = true)
    (l : List α) :
    (stableSort le l).Pairwise (fun a b => le a b = true) := by
  induction l with
  | nil => simp [stableSort]
  | cons x xs ih => exact pairwise_insertSorted total htrans x ih

theorem entLe_total (e1 e2 : Entry) : entLe e1 e2 = true ∨ entLe e2 e1 = true :=
  cmpLe_total sortKeyCmp_lawful _ _

theorem entLe_trans (e1 e2 e3 : Entry) (h1 : entLe e1 e2 = true) (h2 : entLe e2 e3 = true) :
    entLe e1 e3 = true :=
  cmpLe_trans sortKeyCmp_lawful h1 h2

theorem intLe_total (a b : String) : intLe a b = true ∨ intLe b a = true := by
  unfold intLe
  rcases le_total ((pyInt? a).getD 0) ((pyInt? b).getD 0) with h | h
  · left; exact decide_eq_true h
  · right; exact decide_eq_true h

theorem intLe_trans (a b c : String) (h1 : intLe a b = true) (h2 : intLe b c = true) :
    intLe a c = true := by
  unfold intLe at h1 h2 ⊢
  exact decide_eq_true ((of_decide_eq_true h1).trans (of_decide_eq_true h2))

/-! ## Lemmas about keyed filterMaps, dedup and dict operations -/

theorem find?_filterMap_keyed {α β : Type} [BEq α] [LawfulBEq α]
    (f : α → Option (α × β)) (hf : ∀ a x, f a = some x → x.1 = a) :
    ∀ (l : List α), l.Nodup → ∀ i : α,
      (l.filterMap f).find? (fun p => p.1 == i) = if i ∈ l then f i else none := by
  intro l
  induction l with
  | nil => intro _ i; simp
  | cons j tl ih =>
    intro hnd i
    rw [List.nodup_cons] at hnd
    obtain ⟨hj, hnd⟩ := hnd
    rw [List.filterMap_cons]
    cases hfj : f j with
    | none =>
      rw [ih hnd i]
      by_cases hij : i = j
      · subst hij
        rw [if_neg hj, if_pos (List.mem_cons_self _ _), hfj]
      · simp [List.mem_cons, hij]
    | some x =>
      have hx : x.1 = j := hf j x hfj
      by_cases hij : i = j
      · subst hij
        rw [List.find?_cons_of_pos _ (by rw [hx]; exact beq_self_eq_true i),
          if_pos (List.mem_cons_self _ _), hfj]
      · rw [List.find?_cons_of_neg _ (by rw [hx]; simpa using fun h => hij h.symm),
          ih hnd i]
        simp [List.mem_cons, hij]

theorem filterMap_keyed_fst_sublist {α β : Type} (f : α → Option (α × β))
    (hf : ∀ a x, f a = some x → x.1 = a) :
    ∀ l : List α, ((l.filterMap f).map (fun p => p.1)).Sublist l := by
  intro l
  induction l with
  | nil => simp
  | cons j tl ih =>
    rw [List.filterMap_cons]
    cases hfj : f j with
    | none => exact ih.cons j
    | some x =>
      rw [List.map_cons, hf j x hfj]
      exact ih.cons₂ j

theorem mem_dedupAcc : ∀ (l : List String) (seen : List String) (x : String),
    x ∈ dedupAcc seen l ↔ x ∈ l ∧ x ∉ seen := by
  intro l
  induction l with
  | nil => intro seen x; simp [dedupAcc]
  | cons y ys ih =>
    intro seen x
    show x ∈ (if seen.contains y then dedupAcc seen ys else y :: dedupAcc (y :: seen) ys) ↔ _
    split
    · rename_i hy
      have hymem : y ∈ seen := by simpa using hy
      rw [ih]
      constructor
      · rintro ⟨h1, h2⟩
        exact ⟨List.mem_cons_of_mem _ h1, h2⟩
      · rintro ⟨h1, h2⟩
        rcases List.mem_cons.mp h1 with h | h
        · subst h; exact absurd hymem h2
        · exact ⟨h, h2⟩
    · rename_i hy
      have hymem : y ∉ seen := by simpa using hy
      rw [List.mem_cons, ih]
      constructor
      · rintro (h | ⟨h1, h2⟩)
        · subst h; exact ⟨List.mem_cons_self _ _, hymem⟩
        · refine ⟨List.mem_cons_of_mem _ h1, fun hc => h2 (List.mem_cons_of_mem _ hc)⟩
      · rintro ⟨h1, h2⟩
        rcases List.mem_cons.mp h1 with h | h
        · exact Or.inl h
        · by_cases hxy : x = y
          · exact Or.inl hxy
          · exact Or.inr ⟨h, fun hc => (List.mem_cons.mp hc).elim hxy h2⟩

theorem nodup_dedupAcc : ∀ (l : List String) (seen : List String), (dedupAcc seen l).Nodup := by
  intro l
  induction l with
  | nil => intro seen; simp [dedupAcc]
  | cons y ys ih =>
    intro seen
    show (if seen.contains y then dedupAcc seen ys else y :: dedupAcc (y :: seen) ys).Nodup
    split
    · exact ih seen
    · rw [List.nodup_cons]
      refine ⟨fun hc => ?_, ih (y :: seen)⟩
      exact ((mem_dedupAcc ys (y :: seen) y).mp hc).2 (List.mem_cons_self _ _)

theorem mem_dedupFirst {l : List String} {x : String} : x ∈ dedupFirst l ↔ x ∈ l := by
  unfold dedupFirst
  rw [mem_dedupAcc]
  simp

theorem nodup_dedupFirst (l : List String) : (dedupFirst l).Nodup := nodup_dedupAcc l []

theorem hasKey_iff {e : Entry} {k : String} : hasKey e k = true ↔ k ∈ keysOf e := by
  unfold hasKey keysOf
  rw [List.find?_isSome]
  constructor
  · rintro ⟨p, hp, hpk⟩
    exact List.mem_map.mpr ⟨p, hp, eq_of_beq hpk⟩
  · intro h
    obtain ⟨p, hp, hpk⟩ := List.mem_map.mp h
    exact ⟨p, hp, beq_iff_eq.mpr hpk⟩

theorem getD_of_not_key {e : Entry} {k : String} (h : k ∉ keysOf e) : getD e k = Value.null := by
  unfold getD
  rw [List.find?_eq_none.mpr]
  intro p hp
  simp only [beq_iff_eq]
  intro hc
  exact h (List.mem_map.mpr ⟨p, hp, hc⟩)

theorem dictEq_refl (e : Entry) : dictEq e e = true := by
  unfold dictEq
  rw [List.all_eq_true]
  intro k _
  simp

theorem dictEq_getD {l r : Entry} (h : dictEq l r = true) (k : String) : getD l k = getD r k := by
  unfold dictEq at h
  rw [List.all_eq_true] at h
  by_cases hk : k ∈ keysOf l ++ keysOf r
  · have := h k hk
    rw [Bool.and_eq_true] at this
    exact eq_of_beq this.2
  · rw [List.mem_append] at hk
    push_neg at hk
    rw [getD_of_not_key hk.1, getD_of_not_key hk.2]

theorem positionDiff_fst {a b : List Entry} {i : Nat} {x : Nat × FieldDiffs}
    (h : positionDiff a b i = some x) : x.1 = i := by
  unfold positionDiff at h
  rw [Option.map_eq_some'] at h
  obtain ⟨fd, _, hx⟩ := h
  rw [← hx]

theorem mem_list_diff {a b : List Entry} {p : Nat × FieldDiffs} :
    p ∈ list_diff a b ↔
      p.1 < max a.length b.length ∧ positionDiff a b p.1 = some p := by
  unfold list_diff
  rw [List.mem_filterMap]
  constructor
  · rintro ⟨j, hj, hfj⟩
    have hpj : p.1 = j := positionDiff_fst hfj
    rw [List.mem_range] at hj
    rw [hpj]
    exact ⟨hj, hfj⟩
  · rintro ⟨h1, h2⟩
    exact ⟨p.1, List.mem_range.mpr h1, h2⟩

theorem positionFd_some_some {a b : List Entry} {i : Nat} {l r : Entry}
    (hA : a[i]? = some l) (hB : b[i]? = some r) :
    positionFd a b i = if dictEq l r = true then none
      else if entryFieldDiffs l r = [] then none else some (entryFieldDiffs l r) := by
  unfold positionFd
  rw [hA, hB]

theorem positionFd_some_none {a b : List Entry} {i : Nat} {l : Entry}
    (hA : a[i]? = some l) (hB : b[i]? = none) :
    positionFd a b i = some [("<entry>", DiffVal.ent (some l), DiffVal.ent none)] := by
  unfold positionFd
  rw [hA, hB]

theorem positionFd_none_some {a b : List Entry} {i : Nat} {r : Entry}
    (hA : a[i]? = none) (hB : b[i]? = some r) :
    positionFd a b i = some [("<entry>", DiffVal.ent none, DiffVal.ent (some r))] := by
  unfold positionFd
  rw [hA, hB]

theorem positionFd_of_ge {a b : List Entry} {i : Nat}
    (h : max a.length b.length ≤ i) : positionFd a b i = none := by
  unfold positionFd
  rw [List.getElem?_eq_none (le_trans (le_max_left _ _) h),
    List.getElem?_eq_none (le_trans (le_max_right _ _) h)]

theorem positionDiff_of_ge {a b : List Entry} {i : Nat}
    (h : max a.length b.length ≤ i) : positionDiff a b i = none := by
  unfold positionDiff
  rw [positionFd_of_ge h]
  rfl

theorem diffAt_list_diff (a b : List Entry) (i : Nat) :
    diffAt (list_diff a b) i = (positionFd a b i).getD [] := by
  unfold diffAt list_diff
  rw [find?_filterMap_keyed (positionDiff a b) (fun _ _ h => positionDiff_fst h) _
    (List.nodup_range _) i]
  by_cases hi : i ∈ List.range (max a.length b.length)
  · rw [if_pos hi]
    unfold positionDiff
    cases h : positionFd a b i <;> simp
  · rw [if_neg hi]
    rw [List.mem_range] at hi
    rw [positionFd_of_ge (le_of_not_lt hi)]
    rfl

theorem find?_replace_self {s : Snapshot} {k : String} (v : List Entry)
    (hany : s.any (fun p => p.1 == k) = true) :
    (s.map (fun p => if p.1 == k then (k, v) else p)).find? (fun p => p.1 == k) =
      some (k, v) := by
  induction s with
  | nil => simp at hany
  | cons q qs ih =>
    rw [List.map_cons]
    by_cases hq : (q.1 == k) = true
    · rw [if_pos hq]
      exact List.find?_cons_of_pos _ (beq_self_eq_true k)
    · rw [if_neg hq]
      rw [List.find?_cons_of_neg _ (by simp [hq])]
      apply ih
      rw [List.any_cons, Bool.or_eq_true] at hany
      rcases hany with h | h
      · exact absurd h hq
      · exact h

theorem find?_replace_ne {s : Snapshot} {k k' : String} (v : List Entry)
    (hne : k' ≠ k) :
    (s.map (fun p => if p.1 == k then (k, v) else p)).find? (fun p => p.1 == k') =
      s.find? (fun p => p.1 == k') := by
  induction s with
  | nil => rfl
  | cons q qs ih =>
    rw [List.map_cons]
    by_cases hq : (q.1 == k) = true
    · rw [if_pos hq]
      have hqk : q.1 = k := eq_of_beq hq
      rw [List.find?_cons_of_neg _ (by simp; exact fun h => hne h.symm),
        List.find?_cons_of_neg _ (by simp [hqk]; exact fun h => hne h.symm)]
      exact ih
    · rw [if_neg hq]
      by_cases hq' : (q.1 == k') = true
      · rw [List.find?_cons_of_pos (p := fun p => p.1 == k') (a := q) (List.map _ qs) hq',
          List.find?_cons_of_pos (p := fun p => p.1 == k') (a := q) qs hq']
      · rw [List.find?_cons_of_neg (List.map _ qs) (by simp [hq']),
          List.find?_cons_of_neg qs (by simp [hq'])]
        exact ih

theorem getGroup_dictSet (s : Snapshot) (k : String) (v : List Entry) (k' : String) :
    getGroup (dictSet s k v) k' = if k' = k then v else getGroup s k' := by
  unfold dictSet getGroup
  by_cases hany : s.any (fun p => p.1 == k) = true
  · rw [if_pos hany]
    by_cases hk : k' = k
    · subst hk
      rw [find?_replace_self v hany, if_pos rfl]
    · rw [find?_replace_ne v hk, if_neg hk]
  · rw [if_neg hany]
    rw [List.find?_append]
    by_cases hk : k' = k
    · subst hk
      have hnone : s.find? (fun p => p.1 == k') = none := by
        rw [List.find?_eq_none]
        intro p hp hc
        exact hany (List.any_eq_true.mpr ⟨p, hp, hc⟩)
      rw [hnone, if_pos rfl]
      simp [Option.or]
    · have h1 : (([(k, v)] : Snapshot).find? (fun p => p.1 == k')) = none := by
        rw [List.find?_eq_none]
        intro p hp hc
        rw [List.mem_singleton] at hp
        rw [hp] at hc
        exact hk (eq_of_beq hc).symm
      rw [h1, if_neg hk]
      cases s.find? (fun p => p.1 == k') <;> rfl

theorem keysOf_dictSet (s : Snapshot) (k : String) (v : List Entry) :
    (dictSet s k v).map (fun p => p.1) =
      if s.any (fun p => p.1 == k) = true then s.map (fun p => p.1)
      else s.map (fun p => p.1) ++ [k] := by
  unfold dictSet
  by_cases hany : s.any (fun p => p.1 == k) = true
  · rw [if_pos hany, if_pos hany, List.map_map]
    apply List.map_congr_left
    intro p _
    by_cases hp : (p.1 == k) = true
    · simp [hp, eq_of_beq hp]
    · have hne : p.1 ≠ k := by simpa using hp
      simp [hp, hne]
  · rw [if_neg hany, if_neg hany, List.map_append]
    rfl

theorem mem_keys_dictSet_of_mem {s : Snapshot} {k k' : String} {v : List Entry}
    (h : k' ∈ s.map (fun p => p.1)) : k' ∈ (dictSet s k v).map (fun p => p.1) := by
  rw [keysOf_dictSet]
  split
  · exact h
  · exact List.mem_append_left _ h

theorem self_mem_keys_dictSet (s : Snapshot) (k : String) (v : List Entry) :
    k ∈ (dictSet s k v).map (fun p => p.1) := by
  rw [keysOf_dictSet]
  split
  · rename_i hany
    rw [List.any_eq_true] at hany
    obtain ⟨p, hp, hpk⟩ := hany
    exact List.mem_map.mpr ⟨p, hp, eq_of_beq hpk⟩
  · exact List.mem_append_right _ (List.mem_singleton.mpr rfl)

theorem mem_dictSet {s : Snapshot} {k : String} {v : List Entry} {q : String × List Entry}
    (h : q ∈ dictSet s k v) : q = (k, v) ∨ q ∈ s := by
  unfold dictSet at h
  split at h
  · rw [List.mem_map] at h
    obtain ⟨p, hp, hpq⟩ := h
    by_cases hpk : (p.1 == k) = true
    · rw [if_pos hpk] at hpq
      exact Or.inl hpq.symm
    · rw [if_neg hpk] at hpq
      exact Or.inr (hpq ▸ hp)
  · rw [List.mem_append] at h
    rcases h with h | h
    · exact Or.inr h
    · exact Or.inl (List.mem_singleton.mp h)

theorem list_diff_self (a : List Entry) : list_diff a a = [] := by
  unfold list_diff
  rw [List.filterMap_eq_nil_iff]
  intro i _
  unfold positionDiff
  suffices h : positionFd a a i = none by rw [h]; rfl
  unfold positionFd
  cases h : a[i]? with
  | none => rfl
  | some l => simp [dictEq_refl]

theorem mem_snapKeys {s : Snapshot} {k : String} :
    k ∈ snapKeys s ↔ k ∈ s.map (fun p => p.1) := List.mem_dedup

theorem strContains_iff {l : List String} {k : String} :
    l.contains k = true ↔ k ∈ l := List.elem_iff

theorem mem_sortedByInt {l : List String} {k : String} :
    k ∈ sortedByInt l ↔ k ∈ l :=
  (stableSort_perm intLe l).mem_iff

theorem mem_entryFieldDiffs {l r : Entry} {k : String} {ov nv : DiffVal} :
    (k, ov, nv) ∈ entryFieldDiffs l r ↔
      ((k ∈ keysOf l ∨ k ∈ keysOf r) ∧ getD l k ≠ getD r k ∧
        ov = DiffVal.val (getD l k) ∧ nv = DiffVal.val (getD r k)) := by
  unfold entryFieldDiffs
  rw [List.mem_filterMap]
  constructor
  · rintro ⟨k', hk', hf⟩
    split at hf
    · exact absurd hf (by simp)
    · rename_i hne
      rw [Option.some.injEq, Prod.mk.injEq, Prod.mk.injEq] at hf
      obtain ⟨h1, h2, h3⟩ := hf
      subst h1
      rw [mem_dedupFirst, List.mem_append] at hk'
      exact ⟨hk', hne, h2.symm, h3.symm⟩
  · rintro ⟨hk, hne, hov, hnv⟩
    refine ⟨k, ?_, ?_⟩
    · rw [mem_dedupFirst, List.mem_append]
      exact hk
    · rw [if_neg hne, hov, hnv]

theorem nodup_keys_entryFieldDiffs (l r : Entry) :
    ((entryFieldDiffs l r).map (fun f => f.1)).Nodup := by
  apply List.Nodup.sublist
  · exact filterMap_keyed_fst_sublist _
      (fun k x h => by
        split at h
        · exact absurd h (by simp)
        · rw [Option.some.injEq] at h
          rw [← h]) _
  · exact nodup_dedupFirst _

theorem entryFieldDiffs_eq_nil_iff {l r : Entry} :
    entryFieldDiffs l r = [] ↔
      ∀ k, (k ∈ keysOf l ∨ k ∈ keysOf r) → getD l k = getD r k := by
  constructor
  · intro h k hk
    by_contra hne
    have : (k, DiffVal.val (getD l k), DiffVal.val (getD r k)) ∈ entryFieldDiffs l r :=
      mem_entryFieldDiffs.mpr ⟨hk, hne, rfl, rfl⟩
    rw [h] at this
    exact absurd this (List.not_mem_nil _)
  · intro h
    rw [List.eq_nil_iff_forall_not_mem]
    rintro ⟨k, ov, nv⟩ hmem
    obtain ⟨hk, hne, _, _⟩ := mem_entryFieldDiffs.mp hmem
    exact hne (h k hk)

theorem nodup_keys_positionFd (a b : List Entry) (i : Nat) :
    (((positionFd a b i).getD []).map (fun f => f.1)).Nodup := by
  unfold positionFd
  cases ha : a[i]? <;> cases hb : b[i]?
  · simp
  · simp
  · simp
  · show ((Option.getD (if _ then _ else _) []).map _).Nodup
    split
    · simp
    · dsimp only
      split
      · simp
      · exact nodup_keys_entryFieldDiffs _ _

theorem compute_changes_ok {o n : Snapshot} {cs : ChangeSet}
    (h : compute_changes_quiz o n = Except.ok cs) :
    cs.added = sortedByInt ((snapKeys n).filter (fun k => !((snapKeys o).contains k))) ∧
    cs.removed = sortedByInt ((snapKeys o).filter (fun k => !((snapKeys n).contains k))) ∧
    cs.changed = (sortedByInt ((snapKeys o).filter (fun k => (snapKeys n).contains k))).filterMap
      (fun qid =>
        if list_diff (getGroup o qid) (getGroup n qid) = [] then none
        else some (qid, list_diff (getGroup o qid) (getGroup n qid))) ∧
    (∀ k ∈ snapKeys o ++ snapKeys n, (pyInt? k).isSome = true) := by
  simp only [compute_changes_quiz] at h
  split at h
  · rename_i hall
    rw [Except.ok.injEq] at h
    subst h
    refine ⟨rfl, rfl, rfl, ?_⟩
    exact List.all_eq_true.mp hall
  · exact absurd h (by simp)

theorem compute_changes_error {o n : Snapshot}
    (h : ∃ k, k ∈ snapKeys o ++ snapKeys n ∧ pyInt? k = none) :
    compute_changes_quiz o n = Except.error "invalid literal for int() with base 10" := by
  obtain ⟨k, hk, hnone⟩ := h
  simp only [compute_changes_quiz]
  split
  · rename_i hall
    have := List.all_eq_true.mp hall k hk
    rw [hnone] at this
    exact absurd this (by simp)
  · rfl

/-! ## Claim theorems -/

/-- C2: for every canonical snapshot S (whose identifiers, per the data
model, are string forms of integers), `diff(S, S)` is the empty change-set:
added, removed and changed are all empty. -/
theorem diff_self_empty (S : Snapshot) (h : ∀ k ∈ snapKeys S, (pyInt? k).isSome = true) :
    compute_changes_quiz S S = Except.ok ⟨[], [], []⟩ := by
  have hc : ((snapKeys S ++ snapKeys S).all fun k => (pyInt? k).isSome) = true := by
    rw [List.all_eq_true]
    intro k hk
    rcases List.mem_append.mp hk with h' | h' <;> exact h k h'
  have hfilter : (snapKeys S).filter (fun k => !((snapKeys S).contains k)) = [] := by
    rw [List.filter_eq_nil_iff]
    intro k hk
    simp [strContains_iff, hk]
  simp only [compute_changes_quiz]
  rw [if_pos hc, hfilter]
  have hchanged :
      (sortedByInt ((snapKeys S).filter (fun k => (snapKeys S).contains k))).filterMap
        (fun qid =>
          if list_diff (getGroup S qid) (getGroup S qid) = [] then none
          else some (qid, list_diff (getGroup S qid) (getGroup S qid))) = [] := by
    rw [List.filterMap_eq_nil_iff]
    intro qid _
    simp [list_diff_self]
  rw [hchanged]
  rfl

/-- Witness for C2 at a concrete snapshot. -/
theorem diff_self_empty_witness :
    compute_changes_quiz [("10", [[("title", Value.str "x")]])]
      [("10", [[("title", Value.str "x")]])] = Except.ok ⟨[], [], []⟩ :=
  diff_self_empty [("10", [[("title", Value.str "x")]])] (by decide)

/-- C9: `load_snapshot` is total (never raises): a missing or unreadable
or corrupt snapshot file yields the empty mapping, and otherwise the
persisted snapshot is returned. -/
theorem load_snapshot_never_raises (st : StoreState) :
    ((st = StoreState.absent ∨ st = StoreState.unreadable) → load_snapshot st = []) ∧
    (∀ s, st = StoreState.stored s → load_snapshot st = s) := by
  cases st with
  | absent => exact ⟨fun _ => rfl, fun s hs => by cases hs⟩
  | unreadable => exact ⟨fun _ => rfl, fun s hs => by cases hs⟩
  | stored s =>
    refine ⟨fun h => ?_, fun s' hs => ?_⟩
    · rcases h with h | h <;> cases h
    · cases hs
      rfl

/-- Witness for C9 at concrete store states. -/
theorem load_snapshot_never_raises_witness :
    load_snapshot StoreState.absent = [] ∧
      load_snapshot (StoreState.stored [("10", [])]) = [("10", [])] :=
  ⟨(load_snapshot_never_raises StoreState.absent).1 (Or.inl rfl),
   (load_snapshot_never_raises (StoreState.stored [("10", [])])).2 _ rfl⟩

/-- C5: when `diff` returns, its added and removed lists are sorted
ascending by the identifier's parsed integer value; when some identifier
of either snapshot does not parse as an integer, `diff` surfaces an error
to the caller instead of returning a silently misordered result. -/
theorem added_removed_numeric_sort_or_error (o n : Snapshot) :
    (∀ cs, compute_changes_quiz o n = Except.ok cs →
      cs.added.Pairwise (fun x y => (pyInt? x).getD 0 ≤ (pyInt? y).getD 0) ∧
      cs.removed.Pairwise (fun x y => (pyInt? x).getD 0 ≤ (pyInt? y).getD 0)) ∧
    ((∃ k, k ∈ snapKeys o ++ snapKeys n ∧ pyInt? k = none) →
      compute_changes_quiz o n = Except.error "invalid literal for int() with base 10") := by
  constructor
  · intro cs hok
    obtain ⟨ha, hr, _, _⟩ := compute_changes_ok hok
    have hsort : ∀ l : List String,
        (sortedByInt l).Pairwise (fun x y => (pyInt? x).getD 0 ≤ (pyInt? y).getD 0) := by
      intro l
      have hp := pairwise_stableSort intLe_total intLe_trans l
      exact hp.imp (fun h => by unfold intLe at h; exact of_decide_eq_true h)
    rw [ha, hr]
    exact ⟨hsort _, hsort _⟩
  · exact compute_changes_error

/-- Witness for C5: "3" sorts before "20" numerically, and a non-numeric
identifier produces an error. -/
theorem added_removed_numeric_sort_or_error_witness :
    (List.Pairwise (fun x y => (pyInt? x).getD 0 ≤ (pyInt? y).getD 0) ["3", "20"] ∧
      List.Pairwise (fun x y => (pyInt? x).getD 0 ≤ (pyInt? y).getD 0) ([] : List String)) ∧
    compute_changes_quiz [] [("abc", [])] =
      Except.error "invalid literal for int() with base 10" :=
  ⟨(added_removed_numeric_sort_or_error [] [("20", []), ("3", [])]).1
      ⟨["3", "20"], [], []⟩ (by decide),
   (added_removed_numeric_sort_or_error [] [("abc", [])]).2 ⟨"abc", by decide, by decide⟩⟩

/-- C6: added and removed are symmetric under swapping the two snapshots:
`diff(A, B).added = diff(B, A).removed` and vice versa. -/
theorem added_removed_symmetry (A B : Snapshot) (c1 c2 : ChangeSet)
    (h1 : compute_changes_quiz A B = Except.ok c1)
    (h2 : compute_changes_quiz B A = Except.ok c2) :
    c1.added = c2.removed ∧ c1.removed = c2.added := by
  obtain ⟨ha1, hr1, _, _⟩ := compute_changes_ok h1
  obtain ⟨ha2, hr2, _, _⟩ := compute_changes_ok h2
  rw [ha1, hr2, hr1, ha2]
  exact ⟨rfl, rfl⟩

/-- Witness for C6 at concrete snapshots. -/
theorem added_removed_symmetry_witness :
    (⟨["2"], ["1"], []⟩ : ChangeSet).added = (⟨["1"], ["2"], []⟩ : ChangeSet).removed ∧
    (⟨["2"], ["1"], []⟩ : ChangeSet).removed = (⟨["1"], ["2"], []⟩ : ChangeSet).added :=
  added_removed_symmetry [("1", [])] [("2", [])] ⟨["2"], ["1"], []⟩ ⟨["1"], ["2"], []⟩
    (by decide) (by decide)

/-- C7: `normalize_due_entry` is a total projection onto the recognized
fields: the result's keys are exactly `DUE_KEYS` in order, each recognized
field carries the looked-up value (so a missing field carries the null
sentinel), unrecognized fields are dropped, and two raw records agreeing
on the recognized fields normalize identically regardless of extra fields
or key ordering. -/
theorem normalize_total_projection (entry e1 e2 : Entry) :
    keysOf (normalize_due_entry entry) = DUE_KEYS ∧
    (∀ k ∈ DUE_KEYS, getD (normalize_due_entry entry) k = getD entry k) ∧
    (∀ k, k ∉ DUE_KEYS → hasKey (normalize_due_entry entry) k = false) ∧
    ((∀ k ∈ DUE_KEYS, getD e1 k = getD e2 k) →
      normalize_due_entry e1 = normalize_due_entry e2) := by
  have hkeys : keysOf (normalize_due_entry entry) = DUE_KEYS := rfl
  refine ⟨hkeys, ?_, ?_, ?_⟩
  · intro k hk
    fin_cases hk <;> rfl
  · intro k hk
    by_contra hcon
    rw [Bool.not_eq_false, hasKey_iff, hkeys] at hcon
    exact hk hcon
  · intro h
    unfold normalize_due_entry
    exact List.map_congr_left (fun k hk => by rw [h k hk])

/-- Witness for C7: two raw records with different extra fields and key
orderings but equal recognized fields normalize identically. -/
theorem normalize_total_projection_witness :
    normalize_due_entry [("extra", Value.int 7), ("title", Value.str "t")] =
      normalize_due_entry [("title", Value.str "t"), ("other", Value.bool true)] :=
  (normalize_total_projection [] [("extra", Value.int 7), ("title", Value.str "t")]
    [("title", Value.str "t"), ("other", Value.bool true)]).2.2.2 (by decide)

theorem addedBlock_eq_nil {a : List String} : addedBlock a = [] ↔ a = [] := by
  unfold addedBlock
  split
  · rename_i h; simp [h]
  · rename_i h; simp [h]

theorem removedBlock_eq_nil {r : List String} : removedBlock r = [] ↔ r = [] := by
  unfold removedBlock
  split
  · rename_i h; simp [h]
  · rename_i h; simp [h]

theorem changedBlock_eq_nil {c : List (String × List (Nat × FieldDiffs))} :
    changedBlock c = [] ↔ c = [] := by
  unfold changedBlock
  split
  · rename_i h; simp [h]
  · rename_i h; simp [h]

theorem headerLine_length_pos (cid : String) : 0 < (headerLine cid).length := by
  unfold headerLine
  rw [String.length_append, String.length_append]
  have h : 0 < ("@everyone 📣 Canvas changes detected for course `" : String).length := by decide
  omega

/-- C4: the rendered report is empty exactly when added, removed and
changed are all empty; otherwise it is non-empty and consists of the
header line naming the context followed by the added block, the removed
block and the changed block, in that order, newline-joined. -/
theorem render_empty_iff_and_layout (added removed : List String)
    (changed : List (String × List (Nat × FieldDiffs))) (cid : String) :
    (render_change_message_quiz added removed changed cid = "" ↔
      (added = [] ∧ removed = [] ∧ changed = [])) ∧
    (¬(added = [] ∧ removed = [] ∧ changed = []) →
      render_change_message_quiz added removed changed cid ≠ "" ∧
      render_change_message_quiz added removed changed cid =
        headerLine cid ++ "\n" ++
          String.intercalate "\n"
            (addedBlock added ++ removedBlock removed ++ changedBlock changed)) := by
  have hblocks :
      addedBlock added ++ removedBlock removed ++ changedBlock changed = [] ↔
        (added = [] ∧ removed = [] ∧ changed = []) := by
    rw [List.append_eq_nil, List.append_eq_nil, addedBlock_eq_nil, removedBlock_eq_nil,
      changedBlock_eq_nil, and_assoc]
  simp only [render_change_message_quiz]
  split
  · rename_i hl
    exact ⟨⟨fun _ => hblocks.mp hl, fun _ => rfl⟩,
      fun hne => absurd (hblocks.mp hl) hne⟩
  · rename_i hl
    have hne : headerLine cid ++ "\n" ++
        String.intercalate "\n"
          (addedBlock added ++ removedBlock removed ++ changedBlock changed) ≠ "" := by
      intro hc
      have hlen := congrArg String.length hc
      rw [String.length_append, String.length_append] at hlen
      have h1 : ("\n" : String).length = 1 := by decide
      have h2 : ("" : String).length = 0 := by decide
      have h3 := headerLine_length_pos cid
      omega
    exact ⟨⟨fun hc => absurd hc hne, fun hall => absurd (hblocks.mpr hall) hl⟩,
      fun _ => ⟨hne, rfl⟩⟩

/-- Witness for C4: the empty change-set renders nothing and a non-empty
one renders a non-empty report. -/
theorem render_empty_iff_and_layout_witness :
    render_change_message_quiz [] [] [] "1431941" = "" ∧
      render_change_message_quiz ["3"] [] [] "1431941" ≠ "" :=
  ⟨(render_empty_iff_and_layout [] [] [] "1431941").1.mpr ⟨rfl, rfl, rfl⟩,
   ((render_empty_iff_and_layout ["3"] [] [] "1431941").2 (by decide)).1⟩

/-- Counterexample to C3 as stated: the indexer sorts the is-base flag
ascending (`1 if base else 0` under Python's ascending tuple sort), so a
non-base entry precedes a base entry with the same title — the produced
group is not sorted by the spec's descending-flag composite key. -/
theorem base_flag_descending_refuted :
    normalize_payload_to_index c3Payload =
      [("1", [normalize_due_entry [("base", Value.bool false), ("title", Value.str "t")],
              normalize_due_entry [("base", Value.bool true), ("title", Value.str "t")]])] ∧
    ¬ ([normalize_due_entry [("base", Value.bool false), ("title", Value.str "t")],
        normalize_due_entry [("base", Value.bool true), ("title", Value.str "t")]].Pairwise
        (fun e1 e2 => specEntryLe e1 e2 = true)) := by
  constructor
  · decide
  · decide

/-- C3 amended: every canonical group produced by the indexer is sorted by
the fixed composite key with the is-base flag compared in ascending order
(non-base entries before base entries with the same title): title, then
the 0/1 is-base flag, then the due, unlock and lock timestamps as
strings. -/
theorem groups_sorted_by_composite_key (arr : List OverrideItem) (k : String)
    (g : List Entry) (h : (k, g) ∈ normalize_payload_to_index arr) :
    g.Pairwise (fun e1 e2 => entLe e1 e2 = true) := by
  have main : ∀ (l : List OverrideItem) (acc : Snapshot),
      (∀ p ∈ acc, p.2.Pairwise (fun e1 e2 => entLe e1 e2 = true)) →
      ∀ p ∈ List.foldl indexStep acc l, p.2.Pairwise (fun e1 e2 => entLe e1 e2 = true) := by
    intro l
    induction l with
    | nil => intro acc hacc p hp; exact hacc p hp
    | cons it rest ih =>
      intro acc hacc p hp
      rw [List.foldl_cons] at hp
      refine ih _ ?_ p hp
      intro q hq
      unfold indexStep at hq
      split at hq
      · exact hacc q hq
      · rcases mem_dictSet hq with hqe | hqe
        · rw [hqe]
          exact pairwise_stableSort entLe_total entLe_trans _
        · exact hacc q hqe
  exact main arr [] (by simp) (k, g) h

/-- Witness for the amended C3 at a concrete payload. -/
theorem groups_sorted_by_composite_key_witness :
    [normalize_due_entry [("base", Value.bool false), ("title", Value.str "t")],
     normalize_due_entry [("base", Value.bool true), ("title", Value.str "t")]].Pairwise
      (fun e1 e2 => entLe e1 e2 = true) :=
  groups_sorted_by_composite_key c3Payload "1" _ (by decide)

/-- Counterexample to C10 as stated: when an entry itself carries the
literal field name `"<entry>"`, an ordinary field-level diff is recorded
under the marker name, alongside other field names and with neither side
null — the marker clauses of the claim fail on such input. -/
theorem list_diff_wf_refuted :
    ¬ C10Prop [[("<entry>", Value.int 1), ("x", Value.int 1)]]
        [[("<entry>", Value.int 2), ("x", Value.int 2)]] := by
  unfold C10Prop
  decide

/-- C10 amended: the claimed structural invariants of `list_diff` hold for
all entry lists whose entries do not use the reserved field name
`"<entry>"` (as is the case for every entry the normalizer produces):
positions are strictly increasing and below the longer length, recorded
pairs always differ, and a position carrying the whole-entry marker
carries it alone with exactly one side null. -/
theorem positionFd_cases {a b : List Entry} {i : Nat} {fd : FieldDiffs}
    (h : positionFd a b i = some fd) :
    (∃ l r, a[i]? = some l ∧ b[i]? = some r ∧ fd = entryFieldDiffs l r ∧ fd ≠ []) ∨
    (∃ l, a[i]? = some l ∧ b[i]? = none ∧
      fd = [("<entry>", DiffVal.ent (some l), DiffVal.ent none)]) ∨
    (∃ r, a[i]? = none ∧ b[i]? = some r ∧
      fd = [("<entry>", DiffVal.ent none, DiffVal.ent (some r))]) := by
  unfold positionFd at h
  split at h
  · rename_i l r hA hB
    rw [if_neg (by intro hc; rw [if_pos hc] at h; exact absurd h (by simp))] at h
    by_cases hemp : entryFieldDiffs l r = []
    · rw [if_pos hemp] at h
      exact absurd h (by simp)
    · rw [if_neg hemp] at h
      rw [Option.some.injEq] at h
      exact Or.inl ⟨l, r, hA, hB, h.symm, h ▸ hemp⟩
  · rename_i l hA hB
    rw [Option.some.injEq] at h
    exact Or.inr (Or.inl ⟨l, hA, hB, h.symm⟩)
  · rename_i r hA hB
    rw [Option.some.injEq] at h
    exact Or.inr (Or.inr ⟨r, hA, hB, h.symm⟩)
  · exact absurd h (by simp)

theorem list_diff_wf (a b : List Entry)
    (ha : ∀ e ∈ a, "<entry>" ∉ keysOf e) (hb : ∀ e ∈ b, "<entry>" ∉ keysOf e) :
    C10Prop a b := by
  unfold C10Prop
  constructor
  · have hsub := filterMap_keyed_fst_sublist (positionDiff a b)
      (fun _ _ h => positionDiff_fst h) (List.range (max a.length b.length))
    have hpw : ((list_diff a b).map (fun p => p.1)).Pairwise (· < ·) :=
      List.Pairwise.sublist hsub (List.pairwise_lt_range _)
    exact (List.pairwise_map).mp hpw
  · intro p hp
    rw [mem_list_diff] at hp
    obtain ⟨hlt, hpd⟩ := hp
    unfold positionDiff at hpd
    rw [Option.map_eq_some'] at hpd
    obtain ⟨fd, hfd, hfp⟩ := hpd
    have hp2 : p.2 = fd := by rw [← hfp]
    rcases positionFd_cases hfd with ⟨l, r, hA, hB, hfde, -⟩ | ⟨l, hA, hB, hfde⟩ |
      ⟨r, hA, hB, hfde⟩
    · refine ⟨hlt, ?_, ?_⟩
      · intro f hf
        rw [hp2, hfde] at hf
        obtain ⟨k, ov, nv⟩ := f
        obtain ⟨-, hne, hov, hnv⟩ := mem_entryFieldDiffs.mp hf
        intro hc
        have hc' : ov = nv := hc
        rw [hov, hnv] at hc'
        exact hne ((DiffVal.val.injEq _ _).mp hc')
      · intro f hf hkent
        rw [hp2, hfde] at hf
        obtain ⟨k, ov, nv⟩ := f
        obtain ⟨hk, -, -, -⟩ := mem_entryFieldDiffs.mp hf
        exfalso
        have hk' : k = "<entry>" := hkent
        subst hk'
        rcases hk with hk | hk
        · exact ha l (List.getElem?_mem hA) hk
        · exact hb r (List.getElem?_mem hB) hk
    · refine ⟨hlt, ?_, ?_⟩
      · intro f hf
        rw [hp2, hfde] at hf
        rw [List.mem_singleton] at hf
        subst hf
        intro hc
        have hc' : DiffVal.ent (some l) = DiffVal.ent none := hc
        exact absurd hc' (by simp)
      · intro f hf _
        rw [hp2, hfde] at hf
        rw [List.mem_singleton] at hf
        subst hf
        rw [hp2, hfde]
        exact ⟨rfl, Or.inr ⟨rfl, rfl⟩⟩
    · refine ⟨hlt, ?_, ?_⟩
      · intro f hf
        rw [hp2, hfde] at hf
        rw [List.mem_singleton] at hf
        subst hf
        intro hc
        have hc' : DiffVal.ent none = DiffVal.ent (some r) := hc
        exact absurd hc' (by simp)
      · intro f hf _
        rw [hp2, hfde] at hf
        rw [List.mem_singleton] at hf
        subst hf
        rw [hp2, hfde]
        exact ⟨rfl, Or.inl ⟨rfl, rfl⟩⟩

/-- Witness for the amended C10 at concrete entry lists. -/
theorem list_diff_wf_witness :
    C10Prop [[("title", Value.str "a")]]
      [[("title", Value.str "b")], [("title", Value.str "c")]] :=
  list_diff_wf _ _ (by decide) (by decide)

theorem foldl_indexStep_filter :
    ∀ (arr : List OverrideItem) (acc : Snapshot),
      List.foldl indexStep acc (arr.filter (fun it => !(it.quiz_id == Value.null))) =
        List.foldl indexStep acc arr := by
  intro arr
  induction arr with
  | nil => intro acc; rfl
  | cons it rest ih =>
    intro acc
    rw [List.filter_cons]
    by_cases hq : it.quiz_id = Value.null
    · rw [if_neg (by simp [hq])]
      have hstep : indexStep acc it = acc := by
        unfold indexStep
        rw [if_pos hq]
      rw [List.foldl_cons, hstep, ih]
    · rw [if_pos (by simp [hq])]
      rw [List.foldl_cons, List.foldl_cons, ih]

theorem keys_mono_foldl :
    ∀ (arr : List OverrideItem) (acc : Snapshot) (k : String),
      k ∈ acc.map (fun p => p.1) →
      k ∈ (List.foldl indexStep acc arr).map (fun p => p.1) := by
  intro arr
  induction arr with
  | nil => intro acc k h; exact h
  | cons it rest ih =>
    intro acc k h
    rw [List.foldl_cons]
    apply ih
    unfold indexStep
    split
    · exact h
    · exact mem_keys_dictSet_of_mem h

theorem key_present_foldl :
    ∀ (arr : List OverrideItem) (acc : Snapshot) (it : OverrideItem),
      it ∈ arr → it.quiz_id ≠ Value.null →
      pyStr it.quiz_id ∈ (List.foldl indexStep acc arr).map (fun p => p.1) := by
  intro arr
  induction arr with
  | nil => intro acc it h; exact absurd h (List.not_mem_nil _)
  | cons it0 rest ih =>
    intro acc it hmem hne
    rw [List.foldl_cons]
    rcases List.mem_cons.mp hmem with h | h
    · subst h
      apply keys_mono_foldl
      unfold indexStep
      rw [if_neg hne]
      exact self_mem_keys_dictSet _ _ _
    · exact ih _ it h hne

theorem getGroup_foldl_of_no_key :
    ∀ (arr : List OverrideItem) (acc : Snapshot) (k : String),
      (∀ it ∈ arr, it.quiz_id ≠ Value.null → pyStr it.quiz_id ≠ k) →
      getGroup (List.foldl indexStep acc arr) k = getGroup acc k := by
  intro arr
  induction arr with
  | nil => intro acc k _; rfl
  | cons it rest ih =>
    intro acc k h
    rw [List.foldl_cons, ih _ k (fun it' hit' => h it' (List.mem_cons_of_mem _ hit'))]
    unfold indexStep
    split
    · rfl
    · rename_i hne
      rw [getGroup_dictSet,
        if_neg (fun hc => h it (List.mem_cons_self _ _) hne hc.symm)]

theorem getGroup_foldl_unique :
    ∀ (arr : List OverrideItem) (acc : Snapshot) (it : OverrideItem),
      it ∈ arr → it.quiz_id ≠ Value.null →
      ((arr.filter (fun x => !(x.quiz_id == Value.null))).map
        (fun x => pyStr x.quiz_id)).Nodup →
      getGroup (List.foldl indexStep acc arr) (pyStr it.quiz_id) =
        sort_entries ((it.due_dates.getD []).map normalize_due_entry) := by
  intro arr
  induction arr with
  | nil => intro acc it h; exact absurd h (List.not_mem_nil _)
  | cons it0 rest ih =>
    intro acc it hmem hne hnd
    rw [List.foldl_cons]
    rcases List.mem_cons.mp hmem with h | h
    · subst h
      have hrest : ∀ it' ∈ rest, it'.quiz_id ≠ Value.null →
          pyStr it'.quiz_id ≠ pyStr it.quiz_id := by
        intro it' hit' hne' hc
        rw [List.filter_cons, if_pos (by simp [hne]), List.map_cons, List.nodup_cons] at hnd
        apply hnd.1
        rw [← hc]
        exact List.mem_map.mpr ⟨it', List.mem_filter.mpr ⟨hit', by simp [hne']⟩, rfl⟩
      rw [getGroup_foldl_of_no_key rest _ _ hrest]
      unfold indexStep
      rw [if_neg hne, getGroup_dictSet, if_pos rfl]
    · refine ih _ it h hne ?_
      rw [List.filter_cons] at hnd
      split at hnd
      · rw [List.map_cons, List.nodup_cons] at hnd
        exact hnd.2
      · exact hnd

/-- C8: the indexer skips every item whose parent identifier is absent
(filtering them away changes nothing and raises no error), and every
remaining item contributes a snapshot key that is the string form of its
identifier — mapped, when the stringified identifiers are distinct, to
that item's child records normalized and sorted. -/
theorem index_skips_and_stringifies (arr : List OverrideItem) :
    normalize_payload_to_index arr =
      normalize_payload_to_index (arr.filter (fun it => !(it.quiz_id == Value.null))) ∧
    (∀ it ∈ arr, it.quiz_id ≠ Value.null →
      pyStr it.quiz_id ∈ (normalize_payload_to_index arr).map (fun p => p.1)) ∧
    (((arr.filter (fun it => !(it.quiz_id == Value.null))).map
        (fun it => pyStr it.quiz_id)).Nodup →
      ∀ it ∈ arr, it.quiz_id ≠ Value.null →
        getGroup (normalize_payload_to_index arr) (pyStr it.quiz_id) =
          sort_entries ((it.due_dates.getD []).map normalize_due_entry)) := by
  refine ⟨(foldl_indexStep_filter arr []).symm, ?_, ?_⟩
  · intro it hmem hne
    exact key_present_foldl arr [] it hmem hne
  · intro hnd it hmem hne
    exact getGroup_foldl_unique arr [] it hmem hne hnd

/-- C1: for every pair of snapshots and every identifier present in both,
`diff` compares the two groups position by position up to the longer
length; at a position where both entries exist the recorded pairs are
exactly one `(old, new)` pair per union field whose looked-up values
differ; at a position where only one side has an entry a single
whole-entry diff is recorded under the marker name with the missing side
null; and the identifier appears in `changed` exactly when some position
produced a non-empty diff. -/
theorem changed_diff_characterization (o n : Snapshot) (cs : ChangeSet) (qid : String)
    (hok : compute_changes_quiz o n = Except.ok cs)
    (ho : qid ∈ snapKeys o) (hn : qid ∈ snapKeys n) :
    C1Prop o n cs qid := by
  obtain ⟨-, -, hch, -⟩ := compute_changes_ok hok
  have hinter : qid ∈ sortedByInt ((snapKeys o).filter (fun k => (snapKeys n).contains k)) := by
    rw [mem_sortedByInt, List.mem_filter]
    exact ⟨ho, by simpa [strContains_iff] using hn⟩
  unfold C1Prop
  refine ⟨?_, ?_, ?_, ?_, ?_, ?_, ?_⟩
  · intro p hp
    exact (mem_list_diff.mp hp).1
  · intro i l r hA hB k ov nv
    rw [diffAt_list_diff, positionFd_some_some hA hB]
    by_cases hde : dictEq l r = true
    · rw [if_pos hde]
      constructor
      · intro hmem
        exact absurd hmem (List.not_mem_nil _)
      · rintro ⟨hk, hne, -, -⟩
        exact absurd (dictEq_getD hde k) hne
    · rw [if_neg hde]
      by_cases hemp : entryFieldDiffs l r = []
      · rw [if_pos hemp]
        constructor
        · intro hmem
          exact absurd hmem (List.not_mem_nil _)
        · rintro ⟨hk, hne, -, -⟩
          exact absurd (entryFieldDiffs_eq_nil_iff.mp hemp k hk) hne
      · rw [if_neg hemp]
        exact mem_entryFieldDiffs
  · intro i
    rw [diffAt_list_diff]
    exact nodup_keys_positionFd _ _ _
  · intro i l hA hB
    rw [diffAt_list_diff, positionFd_some_none hA hB]
    rfl
  · intro i r hA hB
    rw [diffAt_list_diff, positionFd_none_some hA hB]
    rfl
  · rw [hch]
    constructor
    · rintro ⟨ds, hds⟩
      rw [List.mem_filterMap] at hds
      obtain ⟨q, _, hfq⟩ := hds
      split at hfq
      · exact absurd hfq (by simp)
      · rename_i hdq
        rw [Option.some.injEq, Prod.mk.injEq] at hfq
        obtain ⟨hq1, -⟩ := hfq
        subst hq1
        exact hdq
    · intro hne
      exact ⟨_, List.mem_filterMap.mpr ⟨qid, hinter, by rw [if_neg hne]⟩⟩
  · rw [hch]
    constructor
    · intro hmem
      rw [List.mem_filterMap] at hmem
      obtain ⟨q, _, hfq⟩ := hmem
      split at hfq
      · exact absurd hfq (by simp)
      · rename_i hdq
        rw [Option.some.injEq, Prod.mk.injEq] at hfq
        obtain ⟨hq1, -⟩ := hfq
        subst hq1
        exact hdq
    · intro hne
      exact List.mem_filterMap.mpr ⟨qid, hinter, by rw [if_neg hne]⟩

/-- Witness for C1 at concrete snapshots sharing the identifier "10". -/
theorem changed_diff_characterization_witness :
    C1Prop [("10", [])] [("10", []), ("20", [])] ⟨["20"], [], []⟩ "10" :=
  changed_diff_characterization [("10", [])] [("10", []), ("20", [])] ⟨["20"], [], []⟩ "10"
    (by decide) (by decide) (by decide)

/-- Witness for C8 at a concrete payload with one absent-id item. -/
theorem index_skips_and_stringifies_witness :
    pyStr (Value.int 5) ∈ (normalize_payload_to_index
      [⟨Value.null, none⟩, ⟨Value.int 5, some [[("title", Value.str "a")]]⟩]).map
        (fun p => p.1) ∧
    getGroup (normalize_payload_to_index
        [⟨Value.null, none⟩, ⟨Value.int 5, some [[("title", Value.str "a")]]⟩])
        (pyStr (Value.int 5)) =
      sort_entries ([[("title", Value.str "a")]].map normalize_due_entry) :=
  ⟨(index_skips_and_stringifies
      [⟨Value.null, none⟩, ⟨Value.int 5, some [[("title", Value.str "a")]]⟩]).2.1
      ⟨Value.int 5, some [[("title", Value.str "a")]]⟩ (by decide) (by decide),
   (index_skips_and_stringifies
      [⟨Value.null, none⟩, ⟨Value.int 5, some [[("title", Value.str "a")]]⟩]).2.2
      (by decide) ⟨Value.int 5, some [[("title", Value.str "a")]]⟩ (by decide) (by decide)⟩

end UGS




